import Mathlib

/-!
Verification of the even-element reduction program (`main.cpp`).

The program computes, over an integer array, the sum and the maximum of
the even elements, combined into the scalar `2 * max_even - sum_even`,
by three strategies: a sequential pass, a lock-based parallel pass, and
a lock-free parallel pass using fetch-and-add and a CAS retry loop.

Shallow embedding notes:
* C++ `int` / `long long` values are modelled as `Int`; the 64-bit wrap
  of the combiner is modelled explicitly by `wrap64` (two's-complement
  wrap at `2^64`).  Signed overflow inside the accumulation itself is
  undefined behaviour in C++; the reachable-state analysis below shows
  the program stays far inside the representable range.
* The evenness test `x % 2 == 0` uses C++ truncated remainder, which is
  `Int.tmod` in Lean.
* The two parallel strategies are embedded as total functions of the
  input by serialising the workers in chunk order (worker 0 first); the
  per-element updates they perform are modelled faithfully, and the CAS
  retry loop is additionally modelled one iteration at a time
  (`casAttempt`) to reason about interference.
-/

/-- The evenness predicate of the source, `x % 2 == 0`, with C++
truncated remainder semantics (`Int.tmod`). -/
def isEvenCpp (x : Int) : Bool := x.tmod 2 == 0

/-- One loop iteration of the sequential pass (lines 34-41):
`if (x % 2 == 0) { sum_even += x; if (x > max_even) max_even = x; }`
on the accumulator pair `(sum_even, max_even)`. -/
def step (s : Int × Int) (x : Int) : Int × Int :=
  if isEvenCpp x then (s.1 + x, if x > s.2 then x else s.2) else s

/-- The sequential reducer (lines 32-41): one in-order pass over the
array starting from `sum_even = 0`, `max_even = -1`. -/
def seqReduce (arr : List Int) : Int × Int := arr.foldl step (0, -1)

/-- `sum_even` after the sequential pass. -/
def sum_even (arr : List Int) : Int := (seqReduce arr).1

/-- `max_even` after the sequential pass. -/
def max_even (arr : List Int) : Int := (seqReduce arr).2

/-- Two's-complement wrap of a 64-bit signed machine word. -/
def wrap64 (x : Int) : Int := (x + 2 ^ 63) % 2 ^ 64 - 2 ^ 63

/-- The combiner `2LL * max - sum` (lines 43, 82, 118), evaluated in
64-bit signed arithmetic: the product `2 * max` and the subtraction both
wrap at `2^64`.  Argument order is the accumulator pair `(sum, max)`. -/
def combine (p : Int × Int) : Int := wrap64 (wrap64 (2 * p.2) - p.1)

/-- `result_seq` (line 43). -/
def result_seq (arr : List Int) : Int := combine (seqReduce arr)

/-- `int chunk = n / num_threads;` (line 60). -/
def chunk (n W : Nat) : Nat := n / W

/-- `int start_idx = t * chunk;` (lines 62, 97). -/
def start_idx (n W t : Nat) : Nat := t * chunk n W

/-- `int end_idx = (t == num_threads - 1) ? n : start_idx + chunk;`
(lines 64, 98). -/
def end_idx (n W t : Nat) : Nat :=
  if t = W - 1 then n else start_idx n W t + chunk n W

/-- The indices `start_idx, ..., end_idx - 1` that worker `t` visits. -/
def chunkIdx (n W t : Nat) : List Nat :=
  List.range' (start_idx n W t) (end_idx n W t - start_idx n W t)

/-- One lock-based worker (lines 65-77): it walks its chunk and, for
each even element, performs `sum_even += x; if (x > max_even) max_even
= x;` under the mutex.  Serialised, this is a fold of `step` over the
chunk's elements. -/
def workerMutex (arr : List Int) (n W t : Nat) (s : Int × Int) : Int × Int :=
  (chunkIdx n W t).foldl (fun s i => step s (arr.getD i 0)) s

/-- The lock-based reducer (lines 52-82) as a total function of the
input: accumulators reset to `(0, -1)`, the `W` workers' updates
serialised in chunk order. -/
def mutexReduce (arr : List Int) (W : Nat) : Int × Int :=
  (List.range W).foldl (fun s t => workerMutex arr arr.length W t s) (0, -1)

/-- `result_mutex` (line 82). -/
def result_mutex (arr : List Int) (W : Nat) : Int := combine (mutexReduce arr W)

/-- `compare_exchange_weak` on the model: given the shared cell's value,
the caller's expected value and the desired value, returns the success
flag and the new contents of the shared cell. -/
def cmpxchg (shared expected desired : Int) : Bool × Int :=
  if shared = expected then (true, desired) else (false, shared)

/-- One iteration of the CAS retry loop (lines 106-110)
`while (x > current_max && !atomic_max.compare_exchange_weak(current_max, x))`
in an environment where other workers may have changed the shared cell:
given the shared value, the worker's locally observed `current_max` and
its candidate `x`, returns `(new shared value, new current_max, loop
continues)`. -/
def casAttempt (shared current x : Int) : Int × Int × Bool :=
  if x > current then
    match cmpxchg shared current x with
    | (true, s) => (s, current, false)
    | (false, s) => (shared, s, true)
  else (shared, current, false)

/-- The net effect of the CAS retry loop on the shared max when the
worker runs it to completion without interference: install `x` exactly
when `x` exceeds the current value. -/
def casMaxLoop (m x : Int) : Int := if x > m then x else m

/-- One loop iteration of a lock-free worker (lines 100-111):
`atomic_sum.fetch_add(x, relaxed)` then the CAS retry loop on
`atomic_max`. -/
def stepAtomic (s : Int × Int) (x : Int) : Int × Int :=
  if isEvenCpp x then (s.1 + x, casMaxLoop s.2 x) else s

/-- One lock-free worker (lines 99-113). -/
def workerAtomic (arr : List Int) (n W t : Nat) (s : Int × Int) : Int × Int :=
  (chunkIdx n W t).foldl (fun s i => stepAtomic s (arr.getD i 0)) s

/-- The lock-free reducer (lines 92-118) as a total function of the
input: `atomic_sum` starts at `0`, `atomic_max` at `-1`, the `W`
workers' updates serialised in chunk order. -/
def atomicReduce (arr : List Int) (W : Nat) : Int × Int :=
  (List.range W).foldl (fun s t => workerAtomic arr arr.length W t s) (0, -1)

/-- `result_atomic` (line 118). -/
def result_atomic (arr : List Int) (W : Nat) : Int := combine (atomicReduce arr W)

/-- Accumulator pairs `(sum, max)` reachable in this program: produced
by a complete reduction of an input of at most `10000000` elements
drawn from `[0, 10000]` (the contract of `generateArray`, lines 14-28). -/
def ReachablePair (p : Int × Int) : Prop :=
  ∃ l : List Int, l.length ≤ 10000000 ∧ (∀ x ∈ l, 0 ≤ x ∧ x ≤ 10000) ∧
    seqReduce l = p

/-- The program state threaded through the three passes: the shared
array and the two accumulators.  The reducers only ever read `arr`. -/
structure RunState where
  arr : List Int
  sum : Int
  max : Int
deriving Repr, DecidableEq

/-- The sequential pass (lines 32-41) on the full program state:
resets the accumulators, then folds over the array, reading it and
writing only `sum` and `max`. -/
def seqBody (st : RunState) : RunState :=
  st.arr.foldl
    (fun s x =>
      if isEvenCpp x then
        { s with sum := s.sum + x, max := if x > s.max then x else s.max }
      else s)
    { st with sum := 0, max := -1 }

/-- The lock-based pass (lines 52-81) on the full program state: resets
the accumulators, then each worker reads `arr[i]` from the current state
and updates only the accumulators. -/
def mutexBody (W : Nat) (st : RunState) : RunState :=
  (List.range W).foldl
    (fun s t =>
      (chunkIdx st.arr.length W t).foldl
        (fun s i =>
          let x := s.arr.getD i 0
          if isEvenCpp x then
            { s with sum := s.sum + x, max := if x > s.max then x else s.max }
          else s)
        s)
    { st with sum := 0, max := -1 }

/-- The lock-free pass (lines 92-117) on the full program state. -/
def atomicBody (W : Nat) (st : RunState) : RunState :=
  (List.range W).foldl
    (fun s t =>
      (chunkIdx st.arr.length W t).foldl
        (fun s i =>
          let x := s.arr.getD i 0
          if isEvenCpp x then
            { s with sum := s.sum + x, max := casMaxLoop s.max x }
          else s)
        s)
    { st with sum := 0, max := -1 }

/-- The whole run of `main`: sequential, then lock-based, then
lock-free pass over the same state. -/
def runAll (W : Nat) (st : RunState) : RunState :=
  atomicBody W (mutexBody W (seqBody st))

/-- Specification-side list of the even elements of the input. -/
def evensSpec (arr : List Int) : List Int := arr.filter isEvenCpp

section Lemmas

/-- `casAttempt` with no interference (`shared = current`) computes
`casMaxLoop` in a single iteration. -/
lemma casAttempt_no_interference (m x : Int) :
    casAttempt m m x = (casMaxLoop m x, m, false) := by
  unfold casAttempt cmpxchg casMaxLoop
  by_cases h : x > m <;> simp [h]

/-- `stepAtomic` and `step` perform the same update. -/
lemma stepAtomic_eq_step : stepAtomic = step := by
  funext s x
  unfold stepAtomic step casMaxLoop
  rfl

/-- `W` equal-size chunks laid end to end cover `[0, W * c)`. -/
lemma flatMap_range'_mul (c : Nat) :
    ∀ m : Nat, (List.range m).flatMap (fun t => List.range' (t * c) c) =
      List.range' 0 (m * c) := by
  intro m
  induction m with
  | zero => simp
  | succ m ih =>
    rw [List.range_succ, List.flatMap_append, ih]
    simp only [List.flatMap_cons, List.flatMap_nil, List.append_nil]
    have h := List.range'_append_1 0 (m * c) c
    rw [Nat.zero_add] at h
    rw [h, Nat.succ_mul, Nat.add_comm c (m * c)]

/-- Every chunk has `start_idx ≤ end_idx`: the inverted-range case is
unreachable. -/
lemma start_idx_le_end_idx (n W t : Nat) (_hW : 1 ≤ W) (_ht : t < W) :
    start_idx n W t ≤ end_idx n W t := by
  unfold start_idx end_idx chunk
  by_cases h : t = W - 1
  · simp only [h, if_pos rfl]
    calc (W - 1) * (n / W) ≤ W * (n / W) :=
          Nat.mul_le_mul_right _ (Nat.sub_le W 1)
      _ = n / W * W := Nat.mul_comm _ _
      _ ≤ n := Nat.div_mul_le_self n W
  · simp only [if_neg h]
    exact Nat.le_add_right _ _

/-- Every chunk ends at or before `n`. -/
lemma end_idx_le (n W t : Nat) (_hW : 1 ≤ W) (ht : t < W) :
    end_idx n W t ≤ n := by
  unfold end_idx start_idx chunk
  by_cases h : t = W - 1
  · simp [h]
  · simp only [if_neg h]
    have htW : t + 1 ≤ W := ht
    calc t * (n / W) + n / W = (t + 1) * (n / W) := (Nat.succ_mul t _).symm
      _ ≤ W * (n / W) := Nat.mul_le_mul_right _ htW
      _ = n / W * W := Nat.mul_comm _ _
      _ ≤ n := Nat.div_mul_le_self n W

/-- The chunk ranges, concatenated in worker order, are exactly the
index range `[0, n)`. -/
lemma chunks_cover (n W : Nat) (hW : 1 ≤ W) :
    (List.range W).flatMap (chunkIdx n W) = List.range n := by
  obtain ⟨V, rfl⟩ : ∃ V, W = V + 1 := ⟨W - 1, (Nat.succ_pred_eq_of_pos hW).symm⟩
  rw [List.range_succ, List.flatMap_append]
  have hbody : (List.range V).flatMap (chunkIdx n (V + 1)) =
      (List.range V).flatMap (fun t => List.range' (t * chunk n (V + 1)) (chunk n (V + 1))) := by
    unfold List.flatMap
    congr 1
    apply List.map_congr_left
    intro t ht
    have htV : t < V := List.mem_range.mp ht
    have hne : t ≠ (V + 1) - 1 := by omega
    unfold chunkIdx end_idx start_idx
    rw [if_neg hne]
    congr 1
    omega
  rw [hbody, flatMap_range'_mul]
  simp only [List.flatMap_cons, List.flatMap_nil, List.append_nil]
  have hlast : chunkIdx n (V + 1) V =
      List.range' (V * chunk n (V + 1)) (n - V * chunk n (V + 1)) := by
    unfold chunkIdx end_idx start_idx
    rw [if_pos (by omega)]
  have hle : V * chunk n (V + 1) ≤ n := by
    unfold chunk
    calc V * (n / (V + 1)) ≤ (V + 1) * (n / (V + 1)) :=
          Nat.mul_le_mul_right _ (Nat.le_succ V)
      _ = n / (V + 1) * (V + 1) := Nat.mul_comm _ _
      _ ≤ n := Nat.div_mul_le_self n (V + 1)
  rw [hlast]
  have h := List.range'_append_1 0 (V * chunk n (V + 1)) (n - V * chunk n (V + 1))
  rw [Nat.zero_add] at h
  rw [h, List.range_eq_range']
  congr 1
  omega

/-- Folding a list of chunks one by one is folding their concatenation. -/
lemma foldl_flatMap {α β σ : Type} (g : α → List β) (f : σ → β → σ) :
    ∀ (l : List α) (init : σ),
      (l.flatMap g).foldl f init = l.foldl (fun s a => (g a).foldl f s) init := by
  intro l
  induction l with
  | nil => intro init; rfl
  | cons a l ih =>
    intro init
    rw [List.flatMap_cons, List.foldl_append, List.foldl_cons, ih]

/-- Reading the whole array back through `getD` over `range` yields the
array. -/
lemma map_getD_range (l : List Int) :
    (List.range l.length).map (fun i => l.getD i 0) = l := by
  apply List.ext_getElem
  · simp
  · intro i h1 h2
    simp [List.getD_eq_getElem?_getD, List.getElem?_eq_getElem h2]

/-- Any per-element fold over the chunks, serialised in worker order,
equals the same fold over the array itself. -/
lemma foldl_chunks_eq_foldl (f : Int × Int → Int → Int × Int)
    (arr : List Int) (W : Nat) (hW : 1 ≤ W) (init : Int × Int) :
    (List.range W).foldl
        (fun s t => (chunkIdx arr.length W t).foldl (fun s i => f s (arr.getD i 0)) s) init
      = arr.foldl f init := by
  rw [← foldl_flatMap (chunkIdx arr.length W) (fun s i => f s (arr.getD i 0))
        (List.range W) init,
    chunks_cover arr.length W hW]
  conv_rhs => rw [← map_getD_range arr]
  rw [List.foldl_map]

/-- The lock-based reducer, serialised, is the sequential reducer. -/
lemma mutexReduce_eq_seqReduce (arr : List Int) (W : Nat) (hW : 1 ≤ W) :
    mutexReduce arr W = seqReduce arr := by
  unfold mutexReduce workerMutex seqReduce
  exact foldl_chunks_eq_foldl step arr W hW (0, -1)

/-- The lock-free reducer, serialised, is the sequential reducer. -/
lemma atomicReduce_eq_seqReduce (arr : List Int) (W : Nat) (hW : 1 ≤ W) :
    atomicReduce arr W = seqReduce arr := by
  unfold atomicReduce workerAtomic seqReduce
  rw [stepAtomic_eq_step]
  exact foldl_chunks_eq_foldl step arr W hW (0, -1)

/-- Closed form of the sequential fold from any starting accumulator:
the sum accumulates the even elements, the max folds `max` over them. -/
lemma foldl_step_spec (l : List Int) :
    ∀ s : Int × Int,
      (l.foldl step s).1 = s.1 + (l.filter isEvenCpp).sum ∧
      (l.foldl step s).2 = (l.filter isEvenCpp).foldl max s.2 := by
  induction l with
  | nil => intro s; simp
  | cons x xs ih =>
    intro s
    by_cases hx : isEvenCpp x
    · rw [List.foldl_cons, List.filter_cons_of_pos hx]
      have hstep : step s x = (s.1 + x, if x > s.2 then x else s.2) := by
        unfold step; rw [if_pos hx]
      rw [hstep]
      obtain ⟨h1, h2⟩ := ih (s.1 + x, if x > s.2 then x else s.2)
      constructor
      · rw [h1, List.sum_cons]; ring
      · rw [h2, List.foldl_cons]
        congr 1
        rcases le_or_lt x s.2 with h | h
        · rw [if_neg (not_lt.mpr h), max_eq_left h]
        · rw [if_pos h, max_eq_right (le_of_lt h)]
    · rw [List.foldl_cons, List.filter_cons_of_neg hx]
      have hstep : step s x = s := by unfold step; rw [if_neg hx]
      rw [hstep]
      exact ih s

/-- The starting value is a lower bound of a `max` fold. -/
lemma le_foldl_max (l : List Int) : ∀ a : Int, a ≤ l.foldl max a := by
  induction l with
  | nil => intro a; exact le_refl a
  | cons x xs ih =>
    intro a
    exact le_trans (le_max_left a x) (ih (max a x))

/-- Every list element is a lower bound of a `max` fold over the list. -/
lemma mem_le_foldl_max (l : List Int) :
    ∀ (a x : Int), x ∈ l → x ≤ l.foldl max a := by
  induction l with
  | nil => intro a x hx; cases hx
  | cons y ys ih =>
    intro a x hx
    rcases List.mem_cons.mp hx with rfl | hx
    · exact le_trans (le_max_right a x) (le_foldl_max ys (max a x))
    · exact ih (max a y) x hx

/-- A `max` fold returns its starting value or a list element. -/
lemma foldl_max_mem (l : List Int) :
    ∀ a : Int, l.foldl max a = a ∨ l.foldl max a ∈ l := by
  induction l with
  | nil => intro a; exact Or.inl rfl
  | cons x xs ih =>
    intro a
    rw [List.foldl_cons]
    rcases ih (max a x) with h | h
    · rcases le_or_lt x a with hxa | hxa
      · rw [max_eq_left hxa] at h ⊢
        exact Or.inl h
      · rw [max_eq_right (le_of_lt hxa)] at h ⊢
        rw [h]
        exact Or.inr (List.mem_cons_self x xs)
    · exact Or.inr (List.mem_cons_of_mem x h)

/-- If no element of the list is even, the fold leaves the accumulator
unchanged. -/
lemma foldl_step_no_evens (l : List Int) (h : ∀ x ∈ l, isEvenCpp x = false) :
    ∀ s : Int × Int, l.foldl step s = s := by
  induction l with
  | nil => intro s; rfl
  | cons x xs ih =>
    intro s
    rw [List.foldl_cons]
    have hx : isEvenCpp x = false := h x (List.mem_cons_self x xs)
    have hstep : step s x = s := by
      unfold step; rw [hx]; rfl
    rw [hstep]
    exact ih (fun y hy => h y (List.mem_cons_of_mem x hy)) s

/-- Accumulator bounds for inputs drawn from `[0, 10000]`: the sum stays
in `[0, |l| * 10000]` and the max in `[-1, 10000]`. -/
lemma foldl_step_bounds (l : List Int) :
    ∀ s : Int × Int, (∀ x ∈ l, 0 ≤ x ∧ x ≤ 10000) →
      0 ≤ s.1 → -1 ≤ s.2 → s.2 ≤ 10000 →
      0 ≤ (l.foldl step s).1 ∧
        (l.foldl step s).1 ≤ s.1 + l.length * 10000 ∧
        -1 ≤ (l.foldl step s).2 ∧ (l.foldl step s).2 ≤ 10000 := by
  induction l with
  | nil =>
    intro s _ h1 h2 h3
    refine ⟨h1, ?_, h2, h3⟩
    simp
  | cons x xs ih =>
    intro s hmem h1 h2 h3
    have hx := hmem x (List.mem_cons_self x xs)
    have hmem' : ∀ y ∈ xs, 0 ≤ y ∧ y ≤ 10000 :=
      fun y hy => hmem y (List.mem_cons_of_mem x hy)
    rw [List.foldl_cons]
    by_cases he : isEvenCpp x
    · have hstep : step s x = (s.1 + x, if x > s.2 then x else s.2) := by
        unfold step; rw [if_pos he]
      rw [hstep]
      have h1' : 0 ≤ s.1 + x := by omega
      have h2' : -1 ≤ (if x > s.2 then x else s.2) := by
        split <;> omega
      have h3' : (if x > s.2 then x else s.2) ≤ 10000 := by
        split <;> omega
      obtain ⟨b1, b2, b3, b4⟩ := ih (s.1 + x, if x > s.2 then x else s.2) hmem' h1' h2' h3'
      refine ⟨b1, ?_, b3, b4⟩
      simp only [List.length_cons] at *
      have : ((xs.length : Int) + 1) * 10000 = (xs.length : Int) * 10000 + 10000 := by ring
      push_cast at b2 ⊢
      omega
    · have hstep : step s x = s := by unfold step; rw [if_neg he]
      rw [hstep]
      obtain ⟨b1, b2, b3, b4⟩ := ih s hmem' h1 h2 h3
      refine ⟨b1, ?_, b3, b4⟩
      simp only [List.length_cons] at *
      push_cast at b2 ⊢
      omega

/-- `wrap64` is the identity on values representable in a signed 64-bit
word. -/
lemma wrap64_eq_self (x : Int) (hlo : -(2 ^ 63) ≤ x) (hhi : x < 2 ^ 63) :
    wrap64 x = x := by
  unfold wrap64
  have h1 : 0 ≤ x + 2 ^ 63 := by omega
  have h2 : x + 2 ^ 63 < 2 ^ 64 := by omega
  rw [Int.emod_eq_of_lt h1 h2]
  omega

/-- A fold whose body never writes `arr` leaves `arr` unchanged. -/
lemma foldl_preserves_arr {β : Type} (f : RunState → β → RunState)
    (hf : ∀ s b, (f s b).arr = s.arr) :
    ∀ (l : List β) (st : RunState), (l.foldl f st).arr = st.arr := by
  intro l
  induction l with
  | nil => intro st; rfl
  | cons b bs ih =>
    intro st
    rw [List.foldl_cons, ih, hf]

/-- The sequential pass reads but never writes the array. -/
lemma seqBody_arr (st : RunState) : (seqBody st).arr = st.arr := by
  unfold seqBody
  exact foldl_preserves_arr _ (fun s x => by split <;> rfl) st.arr _

/-- The lock-based pass reads but never writes the array. -/
lemma mutexBody_arr (W : Nat) (st : RunState) : (mutexBody W st).arr = st.arr := by
  unfold mutexBody
  refine foldl_preserves_arr _ ?_ _ _
  intro s t
  refine foldl_preserves_arr _ ?_ _ _
  intro s' i
  dsimp only
  split <;> rfl

/-- The lock-free pass reads but never writes the array. -/
lemma atomicBody_arr (W : Nat) (st : RunState) : (atomicBody W st).arr = st.arr := by
  unfold atomicBody
  refine foldl_preserves_arr _ ?_ _ _
  intro s t
  refine foldl_preserves_arr _ ?_ _ _
  intro s' i
  dsimp only
  split <;> rfl

/-- Chunks of workers `t < u` are separated: worker `t` ends at or
before worker `u` starts. -/
lemma end_idx_le_start_idx (n W t u : Nat) (htu : t < u) (hu : u < W) :
    end_idx n W t ≤ start_idx n W u := by
  unfold end_idx start_idx chunk
  have hne : t ≠ W - 1 := by omega
  rw [if_neg hne]
  have : t * (n / W) + n / W = (t + 1) * (n / W) := (Nat.succ_mul t _).symm
  rw [this]
  exact Nat.mul_le_mul_right _ htu

/-- Membership in a chunk is the half-open interval
`start_idx ≤ i < end_idx`. -/
lemma mem_chunkIdx (n W t i : Nat) (hW : 1 ≤ W) (ht : t < W) :
    i ∈ chunkIdx n W t ↔ start_idx n W t ≤ i ∧ i < end_idx n W t := by
  unfold chunkIdx
  have hle := start_idx_le_end_idx n W t hW ht
  constructor
  · intro h
    obtain ⟨j, hj, rfl⟩ := List.mem_range'.mp h
    omega
  · intro ⟨h1, h2⟩
    exact List.mem_range'.mpr ⟨i - start_idx n W t, by omega, by omega⟩

end Lemmas

/-- Claim C1: for every input sequence and every worker count `W ≥ 1`,
the sequential, lock-based and lock-free strategies, each embedded as a
total function of the input, produce the same final accumulator pair
`(sum_even, max_even)` and therefore the same combined result
`2 * max - sum`. -/
theorem claim_C1_strategies_equivalent (arr : List Int) (W : Nat) (hW : 1 ≤ W) :
    seqReduce arr = mutexReduce arr W ∧ mutexReduce arr W = atomicReduce arr W ∧
    result_seq arr = result_mutex arr W ∧ result_mutex arr W = result_atomic arr W := by
  have h1 := mutexReduce_eq_seqReduce arr W hW
  have h2 := atomicReduce_eq_seqReduce arr W hW
  refine ⟨h1.symm, h1.trans h2.symm, ?_, ?_⟩
  · unfold result_seq result_mutex
    rw [h1]
  · unfold result_mutex result_atomic
    rw [h1, h2]

/-- Witness for C1 at `arr = [2,3,4,5,6]`, `W = 32`. -/
theorem claim_C1_witness :
    (1 ≤ 32) ∧
    (seqReduce [2, 3, 4, 5, 6] = mutexReduce [2, 3, 4, 5, 6] 32 ∧
      mutexReduce [2, 3, 4, 5, 6] 32 = atomicReduce [2, 3, 4, 5, 6] 32 ∧
      result_seq [2, 3, 4, 5, 6] = result_mutex [2, 3, 4, 5, 6] 32 ∧
      result_mutex [2, 3, 4, 5, 6] 32 = result_atomic [2, 3, 4, 5, 6] 32) :=
  ⟨by decide, claim_C1_strategies_equivalent [2, 3, 4, 5, 6] 32 (by decide)⟩

/-- Claim C2: for all `N ≥ 0` and `W ≥ 1` the chunk ranges of the
partitioning rule are pairwise disjoint and, concatenated in worker
order, are exactly the index range `[0, N)`: no index is covered twice
and none is skipped. -/
theorem claim_C2_partition_cover_disjoint (n W : Nat) (hW : 1 ≤ W) :
    (List.range W).flatMap (chunkIdx n W) = List.range n ∧
    ∀ t u, t < W → u < W → t ≠ u →
      ∀ i, i ∈ chunkIdx n W t → i ∉ chunkIdx n W u := by
  refine ⟨chunks_cover n W hW, ?_⟩
  have key : ∀ t u, t < u → u < W →
      ∀ i, i ∈ chunkIdx n W t → i ∉ chunkIdx n W u := by
    intro t u htu hu i hit hiu
    have ht : t < W := lt_trans htu hu
    rw [mem_chunkIdx n W t i hW ht] at hit
    rw [mem_chunkIdx n W u i hW hu] at hiu
    have hsep := end_idx_le_start_idx n W t u htu hu
    omega
  intro t u ht hu htu i hit hiu
  rcases Nat.lt_or_ge t u with h | h
  · exact key t u h hu i hit hiu
  · exact key u t (by omega) ht i hiu hit

/-- Witness for C2 at `n = 5`, `W = 2`. -/
theorem claim_C2_witness :
    (1 ≤ 2) ∧
    ((List.range 2).flatMap (chunkIdx 5 2) = List.range 5 ∧
      ∀ t u, t < 2 → u < 2 → t ≠ u →
        ∀ i, i ∈ chunkIdx 5 2 t → i ∉ chunkIdx 5 2 u) :=
  ⟨by decide, claim_C2_partition_cover_disjoint 5 2 (by decide)⟩

/-- Claim C3: on an input with no even elements every strategy leaves
the sum at `0` and the max at the sentinel `-1`, and the combined result
is `2 * (-1) - 0 = -2`. -/
theorem claim_C3_no_evens_sentinel (arr : List Int) (W : Nat) (hW : 1 ≤ W)
    (h : ∀ x ∈ arr, isEvenCpp x = false) :
    seqReduce arr = (0, -1) ∧ mutexReduce arr W = (0, -1) ∧
    atomicReduce arr W = (0, -1) ∧
    result_seq arr = -2 ∧ result_mutex arr W = -2 ∧ result_atomic arr W = -2 := by
  have hseq : seqReduce arr = (0, -1) := foldl_step_no_evens arr h (0, -1)
  have hm := (mutexReduce_eq_seqReduce arr W hW).trans hseq
  have ha := (atomicReduce_eq_seqReduce arr W hW).trans hseq
  refine ⟨hseq, hm, ha, ?_, ?_, ?_⟩
  · unfold result_seq
    rw [hseq]
    decide
  · unfold result_mutex
    rw [hm]
    decide
  · unfold result_atomic
    rw [ha]
    decide

/-- Witness for C3 at `arr = [1,3,5,7]`, `W = 32`. -/
theorem claim_C3_witness :
    (1 ≤ 32) ∧ (∀ x ∈ [(1 : Int), 3, 5, 7], isEvenCpp x = false) ∧
    (seqReduce [(1 : Int), 3, 5, 7] = (0, -1) ∧
      mutexReduce [(1 : Int), 3, 5, 7] 32 = (0, -1) ∧
      atomicReduce [(1 : Int), 3, 5, 7] 32 = (0, -1) ∧
      result_seq [(1 : Int), 3, 5, 7] = -2 ∧
      result_mutex [(1 : Int), 3, 5, 7] 32 = -2 ∧
      result_atomic [(1 : Int), 3, 5, 7] 32 = -2) :=
  ⟨by decide, by decide,
    claim_C3_no_evens_sentinel [1, 3, 5, 7] 32 (by decide) (by decide)⟩

/-- Counterexample to claim C4 as stated: on the input `[-4]` an even
element exists with true maximum `-4`, yet the reducer leaves the max at
the sentinel `-1` (the update requires `x > max_even`, and `-4 > -1`
fails), so the max is not the true maximum even element. -/
theorem claim_C4_counterexample :
    evensSpec [(-4 : Int)] = [-4] ∧ max_even [(-4 : Int)] = -1 ∧
    ((-1 : Int) ≠ -4) := by decide

/-- Claim C4, amended: for every input sequence of nonnegative elements
(as the program's generator produces), one in-order pass yields a sum
equal to the exact sum of all even elements, and a max that is the true
maximum even element when one exists and the sentinel `-1` otherwise.
(The restriction to nonnegative elements is forced: a negative even
element below the sentinel is never installed.) -/
theorem claim_C4_seq_reducer_correct (arr : List Int) (hpos : ∀ x ∈ arr, 0 ≤ x) :
    sum_even arr = (evensSpec arr).sum ∧
    (evensSpec arr = [] → max_even arr = -1) ∧
    (evensSpec arr ≠ [] →
      max_even arr ∈ evensSpec arr ∧ ∀ y ∈ evensSpec arr, y ≤ max_even arr) := by
  have h1 := (foldl_step_spec arr (0, -1)).1
  have h2 := (foldl_step_spec arr (0, -1)).2
  refine ⟨?_, ?_, ?_⟩
  · unfold sum_even seqReduce evensSpec
    rw [h1, zero_add]
  · intro hnil
    unfold max_even seqReduce
    unfold evensSpec at hnil
    rw [h2, hnil]
    rfl
  · intro hne
    unfold max_even seqReduce
    unfold evensSpec at hne ⊢
    rw [h2]
    have hub : ∀ y ∈ arr.filter isEvenCpp, y ≤ (arr.filter isEvenCpp).foldl max (-1) :=
      fun y hy => mem_le_foldl_max (arr.filter isEvenCpp) (-1) y hy
    refine ⟨?_, hub⟩
    rcases foldl_max_mem (arr.filter isEvenCpp) (-1) with hcase | hcase
    · exfalso
      obtain ⟨y, hy⟩ := List.exists_mem_of_ne_nil _ hne
      have hy0 : 0 ≤ y := hpos y (List.mem_of_mem_filter hy)
      have := hub y hy
      omega
    · exact hcase

/-- Witness for the amended C4 at `arr = [2,3,4,5,6]`. -/
theorem claim_C4_witness :
    (∀ x ∈ [(2 : Int), 3, 4, 5, 6], 0 ≤ x) ∧
    (sum_even [(2 : Int), 3, 4, 5, 6] = (evensSpec [(2 : Int), 3, 4, 5, 6]).sum ∧
      (evensSpec [(2 : Int), 3, 4, 5, 6] = [] →
        max_even [(2 : Int), 3, 4, 5, 6] = -1) ∧
      (evensSpec [(2 : Int), 3, 4, 5, 6] ≠ [] →
        max_even [(2 : Int), 3, 4, 5, 6] ∈ evensSpec [(2 : Int), 3, 4, 5, 6] ∧
        ∀ y ∈ evensSpec [(2 : Int), 3, 4, 5, 6],
          y ≤ max_even [(2 : Int), 3, 4, 5, 6])) :=
  ⟨by decide, claim_C4_seq_reducer_correct [2, 3, 4, 5, 6] (by decide)⟩

/-- Claim C5: the combiner `2 * max - sum`, evaluated in 64-bit signed
arithmetic with explicit wrap, equals the exact mathematical value on
every accumulator pair reachable in this program (inputs of at most
`10^7` elements from `[0, 10000]`): no overflow occurs. -/
theorem claim_C5_combine_no_overflow (p : Int × Int) (hp : ReachablePair p) :
    combine p = 2 * p.2 - p.1 := by
  obtain ⟨l, hlen, hmem, hred⟩ := hp
  have hb := foldl_step_bounds l (0, -1) hmem (le_refl 0) (by norm_num) (by norm_num)
  unfold seqReduce at hred
  rw [hred] at hb
  obtain ⟨b1, b2, b3, b4⟩ := hb
  have hcast : (l.length : Int) ≤ 10000000 := by exact_mod_cast hlen
  have hsum : p.1 ≤ 100000000000 := by
    have h10 : (l.length : Int) * 10000 ≤ 10000000 * 10000 := by
      exact mul_le_mul_of_nonneg_right hcast (by norm_num)
    simp only at b2
    omega
  unfold combine
  rw [wrap64_eq_self (2 * p.2) (by omega) (by omega),
    wrap64_eq_self (2 * p.2 - p.1) (by omega) (by omega)]

/-- Witness for C5 at the pair `(6, 4)`, reached from the input `[2, 4]`. -/
theorem claim_C5_witness :
    ReachablePair (6, 4) ∧ combine (6, 4) = 2 * 4 - 6 :=
  ⟨⟨[2, 4], by decide, by decide, by decide⟩,
    claim_C5_combine_no_overflow (6, 4) ⟨[2, 4], by decide, by decide, by decide⟩⟩

/-- Claim C6: in the CAS retry loop the shared max is monotone — one
iteration either leaves the shared value unchanged or (on a successful
compare-and-swap) installs the candidate `x`, which is strictly greater
than the value it replaces; and when the candidate is not strictly
greater than the locally observed current value the worker skips the
update entirely and exits the loop. -/
theorem claim_C6_cas_monotone (shared current x : Int) :
    ((casAttempt shared current x).1 = shared ∨
      ((casAttempt shared current x).1 > shared ∧ x > current)) ∧
    (¬x > current → casAttempt shared current x = (shared, current, false)) := by
  by_cases hg : x > current
  · by_cases he : shared = current
    · have hval : casAttempt shared current x = (x, current, false) := by
        unfold casAttempt cmpxchg
        rw [if_pos hg, if_pos he]
      rw [hval]
      exact ⟨Or.inr ⟨by omega, hg⟩, fun hc => absurd hg hc⟩
    · have hval : casAttempt shared current x = (shared, shared, true) := by
        unfold casAttempt cmpxchg
        rw [if_pos hg, if_neg he]
      rw [hval]
      exact ⟨Or.inl rfl, fun hc => absurd hg hc⟩
  · have hval : casAttempt shared current x = (shared, current, false) := by
      unfold casAttempt cmpxchg
      rw [if_neg hg]
    rw [hval]
    exact ⟨Or.inl rfl, fun _ => rfl⟩

/-- Witness for C6 at `shared = 1`, `current = 5`, `x = 3`. -/
theorem claim_C6_witness :
    (((casAttempt 1 5 3).1 = 1 ∨ ((casAttempt 1 5 3).1 > 1 ∧ (3 : Int) > 5)) ∧
      (¬(3 : Int) > 5 → casAttempt 1 5 3 = (1, 5, false))) :=
  claim_C6_cas_monotone 1 5 3

/-- Claim C7: on the concrete input `[2, 3, 4, 5, 6]` the even elements
sum to `12` with maximum `6`, and every strategy reports the combined
result `2 * 6 - 12 = 0` and `max = 6`. -/
theorem claim_C7_concrete_small_input :
    evensSpec [2, 3, 4, 5, 6] = [2, 4, 6] ∧
    seqReduce [2, 3, 4, 5, 6] = (12, 6) ∧
    mutexReduce [2, 3, 4, 5, 6] 32 = (12, 6) ∧
    atomicReduce [2, 3, 4, 5, 6] 32 = (12, 6) ∧
    result_seq [2, 3, 4, 5, 6] = 0 ∧
    result_mutex [2, 3, 4, 5, 6] 32 = 0 ∧
    result_atomic [2, 3, 4, 5, 6] 32 = 0 := by decide

/-- Claim C8: on the single-element input `[8]` with `W = 32` workers
the partitioner produces 31 empty chunks and one chunk `[0, 1)`, and
every strategy reports the combined result `2 * 8 - 8 = 8`. -/
theorem claim_C8_concrete_single_element :
    (∀ t, t < 31 → chunkIdx 1 32 t = []) ∧
    chunkIdx 1 32 31 = [0] ∧
    result_seq [8] = 8 ∧ result_mutex [8] 32 = 8 ∧
    result_atomic [8] 32 = 8 := by decide

/-- Claim C9: the input array is never modified — after the sequential,
lock-based and lock-free passes have all run over the program state, the
array equals its value at the start of the first reduction. -/
theorem claim_C9_array_unmodified (W : Nat) (st : RunState) :
    (runAll W st).arr = st.arr := by
  unfold runAll
  rw [atomicBody_arr, mutexBody_arr, seqBody_arr]

/-- Claim C10: for every `N ≥ 0`, `W ≥ 1` and worker `t < W` the chunk
satisfies `start_idx ≤ end_idx ≤ N` with no clamping — the inverted
range the spec warns about is unreachable — and every index the worker
dereferences is in bounds. -/
theorem claim_C10_chunk_in_bounds (n W t : Nat) (hW : 1 ≤ W) (ht : t < W) :
    start_idx n W t ≤ end_idx n W t ∧ end_idx n W t ≤ n ∧
    ∀ i ∈ chunkIdx n W t, i < n := by
  refine ⟨start_idx_le_end_idx n W t hW ht, end_idx_le n W t hW ht, ?_⟩
  intro i hi
  rw [mem_chunkIdx n W t i hW ht] at hi
  have := end_idx_le n W t hW ht
  omega

/-- Witness for C10 at `n = 1`, `W = 32`, `t = 31` (the final worker on
a one-element array). -/
theorem claim_C10_witness :
    (1 ≤ 32) ∧ (31 < 32) ∧
    (start_idx 1 32 31 ≤ end_idx 1 32 31 ∧ end_idx 1 32 31 ≤ 1 ∧
      ∀ i ∈ chunkIdx 1 32 31, i < 1) :=
  ⟨by decide, by decide, claim_C10_chunk_in_bounds 1 32 31 (by decide) (by decide)⟩
